import Mathlib

/-!
Verification of the covfmt coverage-format converter (src/main.go).

The program is embedded shallowly: Go strings are modelled as `List Char`
(all separators used by the program are single characters, so Go's
`strings.Split` coincides with the character-level splitter `splitChar`);
Go `int` is modelled as `Int`, with the int64 range made explicit exactly
where `strconv.Atoi` clamps out-of-range values; filesystem and package
lookups (`os.Stat`, `go/build.Import`) are oracles passed as parameters.
-/

set_option autoImplicit false

namespace Covfmt

/-- Character-level model of Go `strings.Split(s, sep)` for a one-character
separator `c`: splits at every occurrence of `c`, keeping empty segments,
and returns one segment even for the empty string. -/
def splitChar (c : Char) : List Char → List (List Char)
  | [] => [[]]
  | x :: xs =>
    if x = c then [] :: splitChar c xs
    else
      match splitChar c xs with
      | [] => [[x]]
      | s :: rest => (x :: s) :: rest

/-- Model of Go `strings.HasPrefix`: does `s` start with `p`? -/
def leadsWith : List Char → List Char → Bool
  | [], _ => true
  | _ :: _, [] => false
  | p :: ps, x :: xs => (p = x) && leadsWith ps xs

/-- Model of Go `strings.TrimPrefix(s, p)`: drop a leading `p` when present,
otherwise return `s` unchanged. -/
def trimLead (p s : List Char) : List Char :=
  if leadsWith p s then s.drop p.length else s

/-- Numeric value of a decimal digit character. -/
def dval (c : Char) : Nat := c.toNat - 48

/-- The decimal digit character for `d` (0 ≤ d ≤ 9). -/
def digitChar : Nat → Char
  | 0 => '0' | 1 => '1' | 2 => '2' | 3 => '3' | 4 => '4'
  | 5 => '5' | 6 => '6' | 7 => '7' | 8 => '8' | _ => '9'

/-- Value of a most-significant-digit-first digit string. -/
def digitsToNat (s : List Char) : Nat :=
  s.foldl (fun a c => 10 * a + dval c) 0

/-- Are all characters decimal digits? -/
def allDigits (s : List Char) : Bool := s.all (fun c => c.isDigit)

/-- Core of Go `strconv.Atoi` (base 10, 64-bit int) after the optional sign
has been removed: empty or non-digit input is a syntax error yielding value
0; a digit string whose value exceeds the int64 range is a range error
yielding the clamped extreme value. The `Bool` is `true` iff Go would
return a nil error. -/
def atoiCore (neg : Bool) (ds : List Char) : Int × Bool :=
  if ds = [] then (0, false)
  else if allDigits ds then
    let n : Int := (digitsToNat ds : Int)
    if neg then
      if 2 ^ 63 < n then (-(2 ^ 63), false) else (-n, true)
    else
      if 2 ^ 63 - 1 < n then (2 ^ 63 - 1, false) else (n, true)
  else (0, false)

/-- Model of Go `strconv.Atoi` on a 64-bit platform: optional single leading
sign, then decimal digits.  Syntax errors yield 0, range errors yield the
clamped extreme int64 value; the error itself is reported as `false` in the
second component (the program always discards it). -/
def goAtoi : List Char → Int × Bool
  | [] => (0, false)
  | c :: rest =>
    if c = '-' then atoiCore true rest
    else if c = '+' then atoiCore false rest
    else atoiCore false (c :: rest)

/-- Syntactic well-formedness for `goAtoi`: an optional sign followed by a
nonempty digit string. -/
def goAtoiSyntaxOk : List Char → Bool
  | [] => false
  | c :: rest =>
    if c = '-' ∨ c = '+' then (!rest.isEmpty) && allDigits rest
    else allDigits (c :: rest)

/-- Reversed (least-significant-first) decimal digits of `n`, with fuel. -/
def natToRevAux : Nat → Nat → List Char
  | 0, _ => []
  | fuel + 1, n => if n = 0 then [] else digitChar (n % 10) :: natToRevAux fuel (n / 10)

/-- Decimal digit string of a natural number (model of Go `strconv.Itoa`
restricted to nonnegative values). -/
def natToChars (n : Nat) : List Char :=
  if n = 0 then ['0'] else (natToRevAux (n + 1) n).reverse

/-- Model of Go `strconv.Itoa`: canonical decimal text of an integer. -/
def itoa (i : Int) : List Char :=
  if i < 0 then '-' :: natToChars (-i).toNat else natToChars i.toNat

/-- The coverage block of one parsed input record (Go struct `block`);
fields keep the source's names.  Go `int` fields are modelled as `Int`. -/
structure Block where
  startLine : Int
  startChar : Int
  endLine : Int
  endChar : Int
  statements : Int
  covered : Int
  deriving DecidableEq, Repr

/-- Outcome of the structural phase of `parseCoverageLine`.  `fault` marks
the run-time index-out-of-range panic Go raises when a slice index is read
past the end; `reject` is the silent `ok=false` return. -/
inductive ParseOutcome where
  | fault : ParseOutcome
  | reject : ParseOutcome
  | ok : List Char → Block → ParseOutcome
  deriving DecidableEq, Repr

/-- The mode-header marker checked by `strings.HasPrefix(line, "mode:")`. -/
def modeMarker : List Char := ['m', 'o', 'd', 'e', ':']

/-- Structural phase of Go `parseCoverageLine` (src/main.go lines 129-154):
mode-header rejection, the colon / space / comma splits with their exact
segment-count checks, and the period splits, whose segment counts are not
checked in the source: reading `start[1]` or `end[1]` of a one-segment
split is an index-out-of-range panic, modelled as `fault`.  On success the
raw (unresolved) file reference and the populated block are returned; the
subsequent `findFile` resolution is modelled separately. -/
def parseCoverageLine (line : List Char) : ParseOutcome :=
  if leadsWith modeMarker line then .reject
  else
    match splitChar ':' line with
    | [p0, p1] =>
      (match splitChar ' ' p1 with
       | [q0, q1, q2] =>
         (match splitChar ',' q0 with
          | [s0, s1] =>
            (match splitChar '.' s0, splitChar '.' s1 with
             | a0 :: a1 :: _, c0 :: c1 :: _ =>
               .ok p0 ⟨(goAtoi a0).1, (goAtoi a1).1, (goAtoi c0).1,
                       (goAtoi c1).1, (goAtoi q1).1, (goAtoi q2).1⟩
             | _, _ => .fault)
          | _ => .reject)
       | _ => .reject)
    | _ => .reject

/-- A grammatical input line assembled from its seven fields, with the
separators of the coverage-profile grammar. -/
def mkLine (fileRef f1 f2 f3 f4 f5 f6 : List Char) : List Char :=
  fileRef ++ ':' :: (f1 ++ '.' :: f2 ++ ',' :: f3 ++ '.' :: f4 ++ ' ' :: f5 ++ ' ' :: f6)

/-! ## The report emitter (`writeLcovRecord`, src/main.go lines 74-114) -/

/-- The integers from `s` to `e` inclusive (empty when `e < s`).  This is
not itself the loop model: `daLoopGo` below is.  `daLoopGo_run` proves that
every terminating execution of the emitter's line loop visits exactly these
values of its loop variable. -/
def lineNums (s e : Int) : List Int :=
  (List.range (e + 1 - s).toNat).map (fun (k : Nat) => s + (k : Int))

/-- One `DA:` output line: `"DA:" + Itoa(i) + "," + Itoa(cov)`. -/
def daEntry (i cov : Int) : List Char :=
  'D' :: 'A' :: ':' :: (itoa i ++ ',' :: itoa cov)

/-- The `DA:` lines a terminating execution of the loop emits for one
block (`daLoopGo_run`). -/
def daLines (b : Block) : List (List Char) :=
  (lineNums b.startLine b.endLine).map (fun i => daEntry i b.covered)

/-- Two's-complement wrap of an unbounded integer into the int64 range:
the semantics of Go `int` arithmetic on overflow (Go ints are 64-bit on
the platforms the program targets, and signed overflow wraps). -/
def wrap64 (n : Int) : Int := (n + 2 ^ 63) % 2 ^ 64 - 2 ^ 63

/-- The inner loop `for i := b.startLine; i <= b.endLine; i++` of
`writeLcovRecord` (src/main.go lines 95-101), as a fuel-indexed small-step
execution over wrapping int64 arithmetic.  Each iteration appends one
`DA:` line, increments the running `total` counter, increments `covered`
when the block's hit count is positive, and increments the loop variable —
all as wrapping Go ints.  `some` is the accumulator at loop exit; `none`
means the loop did not exit within `fuel` iterations.  When
`e = 2^63 - 1`, the test `i <= e` holds for every int64 value, so no fuel
suffices (`daLoopGo_max_none`): the source loop never terminates there. -/
def daLoopGo (cov e : Int) :
    Nat → Int → List (List Char) × Int × Int → Option (List (List Char) × Int × Int)
  | 0, _, _ => none
  | fuel + 1, i, (out, t, c) =>
    if i ≤ e then
      daLoopGo cov e fuel (wrap64 (i + 1))
        (out ++ [daEntry i cov], wrap64 (t + 1), if 0 < cov then wrap64 (c + 1) else c)
    else some (out, t, c)

/-- Divergence of the line loop from loop-variable value `i`: no fuel
bound makes it exit. -/
def daLoopDiverges (cov e i : Int) : Prop :=
  ∀ (fuel : Nat) (acc : List (List Char) × Int × Int), daLoopGo cov e fuel i acc = none

/-- One more than the iteration count of every terminating run of the
line loop, so `blockLoop` below returns `none` exactly when the source
loop fails to terminate (`blockLoop_some`, `daLoopGo_max_none`). -/
def blockFuel (b : Block) : Nat := (b.endLine + 1 - b.startLine).toNat + 1

/-- The inner loop of `writeLcovRecord` for one block: the accumulator
holds the `DA:` lines written so far and the running `total` and `covered`
counters. -/
def blockLoop (b : Block) (acc : List (List Char) × Int × Int) :
    Option (List (List Char) × Int × Int) :=
  daLoopGo b.covered b.endLine (blockFuel b) b.startLine acc

/-- The block loop of `writeLcovRecord`, threading the output and the two
counters through the blocks in order; `none` when a block's line loop
never exits. -/
def recordLoopFrom :
    List (List Char) × Int × Int → List Block → Option (List (List Char) × Int × Int)
  | acc, [] => some acc
  | acc, b :: bs =>
    match blockLoop b acc with
    | none => none
    | some acc2 => recordLoopFrom acc2 bs

/-- The whole block loop of `writeLcovRecord`, from empty output and
zeroed counters. -/
def recordLoop (bs : List Block) : Option (List (List Char) × Int × Int) :=
  recordLoopFrom ([], 0, 0) bs

/-- The sequence of line numbers carried by the emitted `DA:` entries of a
terminating record, in emission order. -/
def daNums : List Block → List Int
  | [] => []
  | b :: bs => lineNums b.startLine b.endLine ++ daNums bs

/-- Model of `writeLcovRecord`: the lines written for one completed file
record, in order (each `w.WriteString` call ends its line with a newline;
the record is modelled as the list of lines).  `none` when the block loop
never terminates — the source then keeps writing `DA:` lines forever and
never reaches the `LF:`/`LH:` lines. -/
def writeLcovRecord (filePath : List Char) (bs : List Block) : Option (List (List Char)) :=
  match recordLoop bs with
  | none => none
  | some r =>
    some (('T' :: 'N' :: ':' :: []) ::
      ('S' :: 'F' :: ':' :: filePath) ::
      r.1 ++
      [('L' :: 'F' :: ':' :: itoa r.2.1),
       ('L' :: 'H' :: ':' :: itoa r.2.2),
       ('e' :: 'n' :: 'd' :: '_' :: 'o' :: 'f' :: '_' :: 'r' :: 'e' :: 'c' :: 'o' :: 'r' :: 'd' :: [])])

/-! ## Filesystem paths and the repository-root locator -/

/-- Model of Go `path/filepath.Dir` on slash-separated paths: drop the final
path component and any trailing separators; a path without remaining
components yields `"/"` when it was rooted and `"."` otherwise.  (`Clean`'s
rewriting of `"."` and `".."` components is not modelled; the program never
builds such paths.) -/
def pathDir (p : List Char) : List Char :=
  let r1 := p.reverse.dropWhile (fun c => c ≠ '/')
  let r2 := r1.dropWhile (fun c => c = '/')
  if r2 = [] then (if p.head? = some '/' then ['/'] else ['.']) else r2.reverse

/-- Termination measure for the parent-directory ascent: `pathDir` strictly
decreases it until it reaches a fixed point. -/
def pathMeasure (p : List Char) : Nat :=
  if '/' ∈ p then p.length + 2 else if p = ['.'] then 0 else 1

/-- Model of Go `path/filepath.Join(a, b)` for the shapes the program
builds: concatenation with a single separator inserted when needed. -/
def joinPath (a b : List Char) : List Char :=
  if a = [] then b
  else if a.getLast? = some '/' then a ++ b
  else a ++ '/' :: b

/-- Model of Go `path/filepath.Split`: the directory part up to and
including the final separator, and the file name after it. -/
def splitPath (p : List Char) : List Char × List Char :=
  ((p.reverse.dropWhile (fun c => c ≠ '/')).reverse,
   (p.reverse.takeWhile (fun c => c ≠ '/')).reverse)

/-- The four version-control marker directory names (Go `vscDirs`). -/
def vscDirs : List (List Char) :=
  [['.', 'g', 'i', 't'], ['.', 'h', 'g'], ['.', 'b', 'z', 'r'], ['.', 's', 'v', 'n']]

/-- Does `dir` directly contain one of the VCS marker directories?  The
oracle `isDir q` models `os.Stat(q)` succeeding with a directory. -/
def hasVcsMarker (isDir : List Char → Bool) (dir : List Char) : Bool :=
  vscDirs.any (fun v => isDir (joinPath dir v))

/-- The recursion of Go `findRepositoryRoot`, with explicit fuel: at each
level, return the current directory when it contains a marker; stop with
`("", false)` when the parent equals the current directory; otherwise
ascend.  `findRepositoryRoot_eq` proves that the fuel supplied by
`findRepositoryRoot` always suffices, so the fuel-free recursion equation
of the source holds. -/
def findRootGo (isDir : List Char → Bool) : Nat → List Char → List Char × Bool
  | 0, _ => ([], false)
  | fuel + 1, dir =>
    if hasVcsMarker isDir dir then (dir, true)
    else if pathDir dir = dir then ([], false)
    else findRootGo isDir fuel (pathDir dir)

/-- Model of Go `findRepositoryRoot` (src/main.go lines 52-63). -/
def findRepositoryRoot (isDir : List Char → Bool) (dir : List Char) : List Char × Bool :=
  findRootGo isDir (pathMeasure dir + 1) dir

/-- The chain of directories visited by the ascent, with explicit fuel. -/
def ascentGo : Nat → List Char → List (List Char)
  | 0, _ => []
  | fuel + 1, dir =>
    if pathDir dir = dir then [dir] else dir :: ascentGo fuel (pathDir dir)

/-- The directories the ascent of `findRepositoryRoot` visits, from the
start directory up to (and including) the first parent fixed point. -/
def ascentChain (dir : List Char) : List (List Char) :=
  ascentGo (pathMeasure dir + 1) dir

/-- Model of Go `getCoverallsSourceFileName` (src/main.go lines 65-72): the
repository root is searched from the path `name` itself, and on success
`root + "/"` is trimmed from the front of `name` (`os.PathSeparator` is
`'/'` on the platforms the program targets). -/
def getCoverallsSourceFileName (isDir : List Char → Bool) (name : List Char) : List Char :=
  match findRepositoryRoot isDir name with
  | (dir, true) => trimLead (dir ++ ['/']) name
  | (_, false) => name

/-- The shorten operation as the specification words it (spec §4.2): the
repository root is searched from the directory portion of the path.  Stated
only to compare with `getCoverallsSourceFileName`, which searches from the
path itself. -/
def getCoverallsSourceFileNameSpec (isDir : List Char → Bool) (name : List Char) : List Char :=
  match findRepositoryRoot isDir (pathDir name) with
  | (dir, true) => trimLead (dir ++ ['/']) name
  | (_, false) => name

/-! ## The package-directory cache (`findFile`, src/main.go lines 34-50) -/

/-- One cached resolution outcome (Go struct `cacheResult`): the resolved
path and the error, of which exactly one is meaningful. -/
structure CacheResult where
  file : List Char
  err : Option (List Char)
  deriving DecidableEq, Repr

/-- Lookup in the cache, modelled as an association list keyed by the
directory fragment. -/
def cacheFind (c : List (List Char × CacheResult)) (k : List Char) : Option CacheResult :=
  match c with
  | [] => none
  | (k', v) :: rest => if k' = k then some v else cacheFind rest k

/-- The error text `fmt.Errorf("can't find %q: %v", file, err)` builds
(`%q` quoting modelled as plain surrounding quotes). -/
def findFileErr (fname msg : List Char) : List Char :=
  ('c' :: 'a' :: 'n' :: '\x27' :: 't' :: ' ' :: 'f' :: 'i' :: 'n' :: 'd' :: ' ' :: '"' :: fname)
    ++ ('"' :: ':' :: ' ' :: msg)

/-- Result of one `findFile` call: the returned path and error, the cache
after the call, and how many `build.Import` package lookups the call
performed. -/
structure FindFileOut where
  file : List Char
  err : Option (List Char)
  cache : List (List Char × CacheResult)
  importCalls : Nat
  deriving Repr

/-- Model of Go `findFile`: split the reference into directory fragment and
file name; return the cached outcome when the fragment was resolved before,
otherwise perform one package lookup (`imp`, modelling
`build.Import(dir, ".", build.FindOnly)`: `Except.error` carries the error
text), store the outcome — success or failure — under the fragment, and
return it. -/
def findFile (imp : List Char → Except (List Char) (List Char))
    (cache : List (List Char × CacheResult)) (file : List Char) : FindFileOut :=
  let d := splitPath file
  match cacheFind cache d.1 with
  | some r => ⟨r.file, r.err, cache, 0⟩
  | none =>
    let result : CacheResult :=
      match imp d.1 with
      | .error e => ⟨[], some (findFileErr d.2 e)⟩
      | .ok pkgDir => ⟨joinPath pkgDir d.2, none⟩
    ⟨result.file, result.err, (d.1, result) :: cache, 1⟩

/-! ## Lemmas about `splitChar` -/

theorem splitChar_ne_nil (c : Char) (l : List Char) : splitChar c l ≠ [] := by
  induction l with
  | nil => simp [splitChar]
  | cons x xs ih =>
    simp only [splitChar]
    split
    · simp
    · cases h : splitChar c xs <;> simp

theorem splitChar_of_not_mem {c : Char} {l : List Char} (h : c ∉ l) :
    splitChar c l = [l] := by
  induction l with
  | nil => rfl
  | cons x xs ih =>
    simp only [List.mem_cons, not_or] at h
    simp only [splitChar]
    rw [if_neg (fun hx => h.1 hx.symm), ih h.2]

theorem splitChar_append {c : Char} {a : List Char} (b : List Char) (h : c ∉ a) :
    splitChar c (a ++ c :: b) = a :: splitChar c b := by
  induction a with
  | nil => simp [splitChar]
  | cons x xs ih =>
    simp only [List.mem_cons, not_or] at h
    rw [List.cons_append, splitChar, if_neg (fun hx => h.1 hx.symm), ih h.2]

theorem splitChar_length (c : Char) (l : List Char) :
    (splitChar c l).length = l.count c + 1 := by
  induction l with
  | nil => simp [splitChar]
  | cons x xs ih =>
    simp only [splitChar]
    by_cases hx : x = c
    · subst hx
      simp [List.count_cons, ih]
    · rw [if_neg hx]
      cases h : splitChar c xs with
      | nil => exact absurd h (splitChar_ne_nil c xs)
      | cons s rest =>
        rw [h] at ih
        simp only [List.length_cons] at ih ⊢
        rw [List.count_cons]
        simp [hx, ih]

/-! ## Lemmas about digits, `goAtoi` and `itoa` -/

theorem dval_digitChar {d : Nat} (h : d < 10) : dval (digitChar d) = d := by
  interval_cases d <;> rfl

theorem isDigit_digitChar (d : Nat) : (digitChar d).isDigit = true := by
  rcases d with _ | _ | _ | _ | _ | _ | _ | _ | _ | d <;> rfl

/-- Value of a least-significant-digit-first digit list; proof-side mirror
of `digitsToNat`. -/
def valRev : List Char → Nat
  | [] => 0
  | c :: cs => dval c + 10 * valRev cs

theorem digitsToNat_append_singleton (l : List Char) (c : Char) :
    digitsToNat (l ++ [c]) = 10 * digitsToNat l + dval c := by
  simp [digitsToNat, List.foldl_append]

theorem digitsToNat_reverse (l : List Char) : digitsToNat l.reverse = valRev l := by
  induction l with
  | nil => rfl
  | cons c cs ih =>
    rw [List.reverse_cons, digitsToNat_append_singleton, ih, valRev]
    ring

theorem natToRevAux_spec : ∀ fuel n, n < fuel →
    valRev (natToRevAux fuel n) = n ∧ ∀ c ∈ natToRevAux fuel n, c.isDigit = true := by
  intro fuel
  induction fuel with
  | zero => intro n h; omega
  | succ f ih =>
    intro n h
    by_cases hn : n = 0
    · subst hn; simp [natToRevAux, valRev]
    · have hdiv : n / 10 < n := Nat.div_lt_self (Nat.pos_of_ne_zero hn) (by norm_num)
      obtain ⟨ihv, ihd⟩ := ih (n / 10) (by omega)
      have hunfold : natToRevAux (f + 1) n = digitChar (n % 10) :: natToRevAux f (n / 10) := by
        rw [natToRevAux, if_neg hn]
      constructor
      · rw [hunfold, valRev, ihv, dval_digitChar (Nat.mod_lt n (by norm_num))]
        omega
      · rw [hunfold]
        intro ch hch
        rcases List.mem_cons.mp hch with rfl | hch2
        · exact isDigit_digitChar _
        · exact ihd ch hch2

theorem valRev_natToChars (n : Nat) : digitsToNat (natToChars n) = n := by
  by_cases hn : n = 0
  · subst hn; rfl
  · rw [natToChars, if_neg hn, digitsToNat_reverse]
    exact (natToRevAux_spec (n + 1) n (by omega)).1

theorem natToChars_digits (n : Nat) : ∀ c ∈ natToChars n, c.isDigit = true := by
  by_cases hn : n = 0
  · subst hn; intro c hc; simp [natToChars] at hc; subst hc; rfl
  · rw [natToChars, if_neg hn]
    intro c hc
    exact (natToRevAux_spec (n + 1) n (by omega)).2 c (List.mem_reverse.mp hc)

theorem natToChars_ne_nil (n : Nat) : natToChars n ≠ [] := by
  by_cases hn : n = 0
  · subst hn; simp [natToChars]
  · rw [natToChars, if_neg hn]
    intro he
    have := congrArg valRev (congrArg List.reverse he)
    rw [List.reverse_reverse] at this
    have hv := (natToRevAux_spec (n + 1) n (by omega)).1
    simp [valRev] at this
    omega

theorem allDigits_natToChars (n : Nat) : allDigits (natToChars n) = true := by
  rw [allDigits, List.all_eq_true]
  intro c hc
  exact natToChars_digits n c hc

theorem digit_ne_of_isDigit {c : Char} (h : c.isDigit = true) :
    c ≠ '-' ∧ c ≠ '+' ∧ c ≠ ':' ∧ c ≠ ' ' ∧ c ≠ ',' ∧ c ≠ '.' ∧ c ≠ '/' := by
  refine ⟨?_, ?_, ?_, ?_, ?_, ?_, ?_⟩ <;>
    (rintro rfl; exact absurd h (by decide))

theorem atoiCore_true_digits {ds : List Char} (hne : ds ≠ []) (hd : allDigits ds = true) :
    atoiCore true ds =
      if (2 ^ 63 : Int) < (digitsToNat ds : Int) then (-(2 ^ 63), false)
      else (-(digitsToNat ds : Int), true) := by
  simp [atoiCore, hne, hd]

theorem atoiCore_false_digits {ds : List Char} (hne : ds ≠ []) (hd : allDigits ds = true) :
    atoiCore false ds =
      if (2 ^ 63 - 1 : Int) < (digitsToNat ds : Int) then ((2 ^ 63 - 1 : Int), false)
      else ((digitsToNat ds : Int), true) := by
  simp [atoiCore, hne, hd]

theorem atoiCore_bad {neg : Bool} {ds : List Char} (h : ds = [] ∨ allDigits ds = false) :
    atoiCore neg ds = (0, false) := by
  rcases h with rfl | h
  · rw [atoiCore, if_pos rfl]
  · rw [atoiCore]
    by_cases hne : ds = []
    · rw [if_pos hne]
    · rw [if_neg hne, if_neg (by simp [h])]

theorem goAtoi_itoa {i : Int} (h1 : -(2 ^ 63) ≤ i) (h2 : i ≤ 2 ^ 63 - 1) :
    goAtoi (itoa i) = (i, true) := by
  by_cases hi : i < 0
  · have hm : ((-i).toNat : Int) = -i := Int.toNat_of_nonneg (by omega)
    have hle : ¬((2 ^ 63 : Int) < ((digitsToNat (natToChars (-i).toNat) : Nat) : Int)) := by
      rw [valRev_natToChars]; omega
    rw [itoa, if_pos hi, goAtoi, if_pos rfl,
      atoiCore_true_digits (natToChars_ne_nil _) (allDigits_natToChars _),
      if_neg hle, valRev_natToChars, hm, neg_neg]
  · have hm : (i.toNat : Int) = i := Int.toNat_of_nonneg (by omega)
    have hle : ¬((2 ^ 63 - 1 : Int) < ((digitsToNat (natToChars i.toNat) : Nat) : Int)) := by
      rw [valRev_natToChars]; omega
    rw [itoa, if_neg hi]
    cases hc : natToChars i.toNat with
    | nil => exact absurd hc (natToChars_ne_nil _)
    | cons c rest =>
      have hcd : c.isDigit = true :=
        natToChars_digits i.toNat c (by rw [hc]; exact List.mem_cons_self c rest)
      obtain ⟨hd1, hd2, -⟩ := digit_ne_of_isDigit hcd
      rw [goAtoi, if_neg hd1, if_neg hd2, ← hc,
        atoiCore_false_digits (natToChars_ne_nil _) (allDigits_natToChars _),
        if_neg hle, valRev_natToChars, hm]

theorem goAtoi_syntax_err {s : List Char} (h : goAtoiSyntaxOk s = false) :
    goAtoi s = (0, false) := by
  cases s with
  | nil => rfl
  | cons c rest =>
    rw [goAtoiSyntaxOk] at h
    by_cases hsgn : c = '-' ∨ c = '+'
    · rw [if_pos hsgn] at h
      have hres : rest = [] ∨ allDigits rest = false := by
        rcases rest with - | ⟨r, rs⟩
        · exact Or.inl rfl
        · right
          simpa using h
      rcases hsgn with rfl | rfl
      · rw [goAtoi, if_pos rfl, atoiCore_bad hres]
      · rw [goAtoi, if_neg (by decide), if_pos rfl, atoiCore_bad hres]
    · push_neg at hsgn
      rw [if_neg (by tauto)] at h
      rw [goAtoi, if_neg hsgn.1, if_neg hsgn.2, atoiCore_bad (Or.inr h)]

theorem goAtoi_range_pos {s : List Char} (hd : allDigits s = true) (hne : s ≠ [])
    (hv : (2 ^ 63 - 1 : Int) < (digitsToNat s : Int)) :
    goAtoi s = (2 ^ 63 - 1, false) := by
  cases s with
  | nil => exact absurd rfl hne
  | cons c rest =>
    have hcd : c.isDigit = true := by
      rw [allDigits, List.all_eq_true] at hd
      exact hd c (List.mem_cons_self c rest)
    obtain ⟨hd1, hd2, -⟩ := digit_ne_of_isDigit hcd
    rw [goAtoi, if_neg hd1, if_neg hd2, atoiCore_false_digits (by simp) hd, if_pos hv]

theorem goAtoi_range_neg {s : List Char} (hd : allDigits s = true) (hne : s ≠ [])
    (hv : (2 ^ 63 : Int) < (digitsToNat s : Int)) :
    goAtoi ('-' :: s) = (-(2 ^ 63), false) := by
  rw [goAtoi, if_pos rfl, atoiCore_true_digits hne hd, if_pos hv]

/-! ## Structural behaviour of `parseCoverageLine` -/

/-- A field free of all four separator characters of the line grammar. -/
abbrev noSep (s : List Char) : Prop := ':' ∉ s ∧ ' ' ∉ s ∧ ',' ∉ s ∧ '.' ∉ s

theorem itoa_mem (i : Int) : ∀ c ∈ itoa i, c = '-' ∨ c.isDigit = true := by
  intro c hc
  rw [itoa] at hc
  split at hc
  · rcases List.mem_cons.mp hc with rfl | hc2
    · exact Or.inl rfl
    · exact Or.inr (natToChars_digits _ c hc2)
  · exact Or.inr (natToChars_digits _ c hc)

theorem itoa_noSep (i : Int) : noSep (itoa i) := by
  refine ⟨?_, ?_, ?_, ?_⟩ <;>
    (intro hmem
     rcases itoa_mem i _ hmem with h | h
     · exact absurd h (by decide)
     · exact absurd h (by decide))

/-- A line built as `fileRef ++ ":" ++ rest` is never taken for a mode
header when the file reference contains no colon and is not literally
`"mode"`. -/
theorem leadsWith_modeMarker_false {fileRef : List Char} (rest : List Char)
    (hfc : ':' ∉ fileRef) (hfm : fileRef ≠ ['m', 'o', 'd', 'e']) :
    leadsWith modeMarker (fileRef ++ ':' :: rest) = false := by
  rcases fileRef with - | ⟨a, - | ⟨b, - | ⟨c2, - | ⟨d2, - | ⟨e2, tl⟩⟩⟩⟩⟩
  · simp [modeMarker, leadsWith]
  · simp [modeMarker, leadsWith]
  · simp [modeMarker, leadsWith]
  · simp [modeMarker, leadsWith]
  · apply Bool.eq_false_iff.mpr
    intro htrue
    simp only [modeMarker, List.cons_append, List.nil_append, leadsWith,
      Bool.and_eq_true, decide_eq_true_eq] at htrue
    exact hfm (by rw [← htrue.1, ← htrue.2.1, ← htrue.2.2.1, ← htrue.2.2.2.1])
  · apply Bool.eq_false_iff.mpr
    intro htrue
    simp only [modeMarker, List.cons_append, leadsWith,
      Bool.and_eq_true, decide_eq_true_eq] at htrue
    exact hfc (by rw [htrue.2.2.2.2.1]; simp)

/-- Structural success of `parseCoverageLine` on a grammatical line: the
colon, space, comma and period splits each produce the expected segments,
and every numeric field goes through Go `Atoi` with its error discarded. -/
theorem parseCoverageLine_mkLine (fileRef f1 f2 f3 f4 f5 f6 : List Char)
    (hfc : ':' ∉ fileRef) (hfm : fileRef ≠ ['m', 'o', 'd', 'e'])
    (h1 : noSep f1) (h2 : noSep f2) (h3 : noSep f3) (h4 : noSep f4)
    (h5 : ':' ∉ f5 ∧ ' ' ∉ f5) (h6 : ':' ∉ f6 ∧ ' ' ∉ f6) :
    parseCoverageLine (mkLine fileRef f1 f2 f3 f4 f5 f6) =
      .ok fileRef ⟨(goAtoi f1).1, (goAtoi f2).1, (goAtoi f3).1,
                   (goAtoi f4).1, (goAtoi f5).1, (goAtoi f6).1⟩ := by
  obtain ⟨h1c, h1s, h1m, h1p⟩ := h1
  obtain ⟨h2c, h2s, h2m, h2p⟩ := h2
  obtain ⟨h3c, h3s, h3m, h3p⟩ := h3
  obtain ⟨h4c, h4s, h4m, h4p⟩ := h4
  have hmode := leadsWith_modeMarker_false
    (f1 ++ '.' :: (f2 ++ ',' :: (f3 ++ '.' :: (f4 ++ ' ' :: (f5 ++ ' ' :: f6))))) hfc hfm
  have hrestc : ':' ∉ f1 ++ '.' :: (f2 ++ ',' :: (f3 ++ '.' :: (f4 ++ ' ' :: (f5 ++ ' ' :: f6)))) := by
    simp [List.mem_append, List.mem_cons, h1c, h2c, h3c, h4c, h5.1, h6.1]
  have hsplit1 : splitChar ':'
      (fileRef ++ ':' :: (f1 ++ '.' :: (f2 ++ ',' :: (f3 ++ '.' :: (f4 ++ ' ' :: (f5 ++ ' ' :: f6))))))
      = [fileRef, f1 ++ '.' :: (f2 ++ ',' :: (f3 ++ '.' :: (f4 ++ ' ' :: (f5 ++ ' ' :: f6))))] := by
    rw [splitChar_append _ hfc, splitChar_of_not_mem hrestc]
  have hr1 : ' ' ∉ f1 ++ '.' :: (f2 ++ ',' :: (f3 ++ '.' :: f4)) := by
    simp [List.mem_append, List.mem_cons, h1s, h2s, h3s, h4s]
  have hsplit2 : splitChar ' '
      (f1 ++ '.' :: (f2 ++ ',' :: (f3 ++ '.' :: (f4 ++ ' ' :: (f5 ++ ' ' :: f6)))))
      = [f1 ++ '.' :: (f2 ++ ',' :: (f3 ++ '.' :: f4)), f5, f6] := by
    have e1 : f1 ++ '.' :: (f2 ++ ',' :: (f3 ++ '.' :: (f4 ++ ' ' :: (f5 ++ ' ' :: f6))))
        = (f1 ++ '.' :: (f2 ++ ',' :: (f3 ++ '.' :: f4))) ++ ' ' :: (f5 ++ ' ' :: f6) := by
      simp [List.append_assoc]
    rw [e1, splitChar_append _ hr1, splitChar_append _ h5.2, splitChar_of_not_mem h6.2]
  have hcma : ',' ∉ f1 ++ '.' :: f2 := by
    simp [List.mem_append, List.mem_cons, h1m, h2m]
  have hcmb : ',' ∉ f3 ++ '.' :: f4 := by
    simp [List.mem_append, List.mem_cons, h3m, h4m]
  have hsplit3 : splitChar ',' (f1 ++ '.' :: (f2 ++ ',' :: (f3 ++ '.' :: f4)))
      = [f1 ++ '.' :: f2, f3 ++ '.' :: f4] := by
    have e2 : f1 ++ '.' :: (f2 ++ ',' :: (f3 ++ '.' :: f4))
        = (f1 ++ '.' :: f2) ++ ',' :: (f3 ++ '.' :: f4) := by
      simp [List.append_assoc]
    rw [e2, splitChar_append _ hcma, splitChar_of_not_mem hcmb]
  have hsplit4 : splitChar '.' (f1 ++ '.' :: f2) = [f1, f2] := by
    rw [splitChar_append _ h1p, splitChar_of_not_mem h2p]
  have hsplit5 : splitChar '.' (f3 ++ '.' :: f4) = [f3, f4] := by
    rw [splitChar_append _ h3p, splitChar_of_not_mem h4p]
  simp [mkLine, parseCoverageLine, hmode, hsplit1, hsplit2, hsplit3, hsplit4, hsplit5]

/-! ## Claim theorems: the record parser -/

/-- C1: the claim states that a segment-count mismatch at any of the four
split steps returns ok=false without any fault; the code, however, never
checks the period-split segment counts, and on the line `x:1,2 3 4` (whose
start range field `1` contains no period) it reads `start[1]` past the end
of a one-element slice: an index-out-of-range panic, not a silent
rejection.  This theorem evaluates the parser at that failing input. -/
theorem parseCoverageLine_fault_no_period :
    parseCoverageLine ['x', ':', '1', ',', '2', ' ', '3', ' ', '4'] = .fault := by
  decide

/-- C4 counterexample: the line `a:1.1,2.2 1 1:1` contains a colon, and its
remainder after the first colon would be structurally parseable under a
first-colon split (the trailing field `1:1` is merely a numeric field), yet
`parseCoverageLine` rejects the line, because `strings.Split` splits at
every colon and the three resulting segments fail the `== 2` check. -/
theorem parseCoverageLine_colon_cex :
    parseCoverageLine
        ['a', ':', '1', '.', '1', ',', '2', '.', '2', ' ', '1', ' ', '1', ':', '1'] = .reject
    ∧ (splitChar ':'
        ['a', ':', '1', '.', '1', ',', '2', '.', '2', ' ', '1', ' ', '1', ':', '1']).length = 3 := by
  decide

/-- C4 (amended): `parseCoverageLine` splits on every colon and requires
exactly two segments, so a line containing two or more colons is rejected;
only for a line containing exactly one colon do the two segments coincide
with everything before and everything after that colon. -/
theorem parseCoverageLine_colon_discipline (line : List Char) :
    (2 ≤ line.count ':' → parseCoverageLine line = .reject)
    ∧ (∀ a b : List Char, ':' ∉ a → ':' ∉ b → line = a ++ ':' :: b →
        splitChar ':' line = [a, b]) := by
  constructor
  · intro hcnt
    by_cases hm : leadsWith modeMarker line = true
    · rw [parseCoverageLine, if_pos hm]
    · rw [parseCoverageLine, if_neg hm]
      have hlen := splitChar_length ':' line
      rcases hsp : splitChar ':' line with - | ⟨x, - | ⟨y, - | ⟨z, t⟩⟩⟩
      · rfl
      · rfl
      · rw [hsp] at hlen
        simp at hlen
        omega
      · rfl
  · intro a b ha hb hline
    rw [hline, splitChar_append b ha, splitChar_of_not_mem hb]

theorem parseCoverageLine_colon_discipline_witness :
    parseCoverageLine ['a', ':', 'b', ':', 'c'] = .reject
    ∧ splitChar ':' ['a', ':', 'b'] = [['a'], ['b']] :=
  ⟨(parseCoverageLine_colon_discipline ['a', ':', 'b', ':', 'c']).1 (by decide),
   (parseCoverageLine_colon_discipline ['a', ':', 'b']).2 ['a'] ['b']
     (by decide) (by decide) rfl⟩

/-- C5 counterexample: on the structurally well-shaped line
`a.go:1.1,2.2 99999999999999999999 1`, the statement-count field fails to
parse (`Atoi` reports a range error), yet the resulting block carries
9223372036854775807 — the clamped maximum int64 that `Atoi` returns
alongside the discarded range error — not the zero the claim promises for
every unparseable numeric field. -/
theorem parseCoverageLine_overflow_cex :
    parseCoverageLine (mkLine ['a', '.', 'g', 'o'] ['1'] ['1'] ['2'] ['2']
        ['9', '9', '9', '9', '9', '9', '9', '9', '9', '9',
         '9', '9', '9', '9', '9', '9', '9', '9', '9', '9'] ['1'])
      = .ok ['a', '.', 'g', 'o'] ⟨1, 1, 2, 2, 9223372036854775807, 1⟩
    ∧ (goAtoi ['9', '9', '9', '9', '9', '9', '9', '9', '9', '9',
               '9', '9', '9', '9', '9', '9', '9', '9', '9', '9']).2 = false
    ∧ (9223372036854775807 : Int) ≠ 0 := by
  decide

/-- C5 (amended): on a structurally well-shaped line every numeric field is
passed through Go `Atoi` with the error discarded, so no field content ever
makes the line an error; a field that fails to parse for a syntactic reason
(empty, stray sign, or any non-digit character) becomes zero, but a pure
digit string whose value exceeds the int64 range becomes the clamped
extreme value of the corresponding sign, not zero. -/
theorem parseCoverageLine_numeric_leniency (fileRef f1 f2 f3 f4 f5 f6 : List Char)
    (hfc : ':' ∉ fileRef) (hfm : fileRef ≠ ['m', 'o', 'd', 'e'])
    (h1 : noSep f1) (h2 : noSep f2) (h3 : noSep f3) (h4 : noSep f4)
    (h5 : ':' ∉ f5 ∧ ' ' ∉ f5) (h6 : ':' ∉ f6 ∧ ' ' ∉ f6) :
    parseCoverageLine (mkLine fileRef f1 f2 f3 f4 f5 f6) =
      .ok fileRef ⟨(goAtoi f1).1, (goAtoi f2).1, (goAtoi f3).1,
                   (goAtoi f4).1, (goAtoi f5).1, (goAtoi f6).1⟩
    ∧ (∀ s : List Char, goAtoiSyntaxOk s = false → goAtoi s = (0, false))
    ∧ (∀ s : List Char, allDigits s = true → s ≠ [] →
        (2 ^ 63 - 1 : Int) < (digitsToNat s : Int) → goAtoi s = (2 ^ 63 - 1, false))
    ∧ (∀ s : List Char, allDigits s = true → s ≠ [] →
        (2 ^ 63 : Int) < (digitsToNat s : Int) → goAtoi ('-' :: s) = (-(2 ^ 63), false)) :=
  ⟨parseCoverageLine_mkLine fileRef f1 f2 f3 f4 f5 f6 hfc hfm h1 h2 h3 h4 h5 h6,
   fun _ hs => goAtoi_syntax_err hs,
   fun _ ha hb hc => goAtoi_range_pos ha hb hc,
   fun _ ha hb hc => goAtoi_range_neg ha hb hc⟩

theorem parseCoverageLine_numeric_leniency_witness :
    ((':' ∉ (['f'] : List Char)) ∧ (['f'] : List Char) ≠ ['m', 'o', 'd', 'e']
      ∧ noSep ['1'] ∧ noSep ['2'] ∧ noSep ['3'] ∧ noSep ['4']
      ∧ ((':' ∉ (['x'] : List Char)) ∧ (' ' ∉ (['x'] : List Char)))
      ∧ ((':' ∉ (['7'] : List Char)) ∧ (' ' ∉ (['7'] : List Char))))
    ∧ (parseCoverageLine (mkLine ['f'] ['1'] ['2'] ['3'] ['4'] ['x'] ['7']) =
        .ok ['f'] ⟨(goAtoi ['1']).1, (goAtoi ['2']).1, (goAtoi ['3']).1,
                   (goAtoi ['4']).1, (goAtoi ['x']).1, (goAtoi ['7']).1⟩
      ∧ (∀ s : List Char, goAtoiSyntaxOk s = false → goAtoi s = (0, false))
      ∧ (∀ s : List Char, allDigits s = true → s ≠ [] →
          (2 ^ 63 - 1 : Int) < (digitsToNat s : Int) → goAtoi s = (2 ^ 63 - 1, false))
      ∧ (∀ s : List Char, allDigits s = true → s ≠ [] →
          (2 ^ 63 : Int) < (digitsToNat s : Int) → goAtoi ('-' :: s) = (-(2 ^ 63), false))) :=
  ⟨⟨by decide, by decide, by decide, by decide, by decide, by decide, by decide, by decide⟩,
   parseCoverageLine_numeric_leniency ['f'] ['1'] ['2'] ['3'] ['4'] ['x'] ['7']
     (by decide) (by decide) (by decide) (by decide) (by decide) (by decide)
     (by decide) (by decide)⟩

/-- C9: round trip of the numeric payload.  For a line whose six numeric
fields are the canonical decimal texts of int64-range integers (and whose
file reference contains no colon and is not the literal `mode`), parsing
recovers exactly those integers, so re-serializing the six fields of the
returned block with `Itoa` reproduces the original field texts. -/
theorem parseCoverageLine_roundTrip (fileRef : List Char) (n1 n2 n3 n4 n5 n6 : Int)
    (hfc : ':' ∉ fileRef) (hfm : fileRef ≠ ['m', 'o', 'd', 'e'])
    (hr1 : -(2 ^ 63) ≤ n1 ∧ n1 ≤ 2 ^ 63 - 1) (hr2 : -(2 ^ 63) ≤ n2 ∧ n2 ≤ 2 ^ 63 - 1)
    (hr3 : -(2 ^ 63) ≤ n3 ∧ n3 ≤ 2 ^ 63 - 1) (hr4 : -(2 ^ 63) ≤ n4 ∧ n4 ≤ 2 ^ 63 - 1)
    (hr5 : -(2 ^ 63) ≤ n5 ∧ n5 ≤ 2 ^ 63 - 1) (hr6 : -(2 ^ 63) ≤ n6 ∧ n6 ≤ 2 ^ 63 - 1) :
    ∃ b : Block,
      parseCoverageLine
          (mkLine fileRef (itoa n1) (itoa n2) (itoa n3) (itoa n4) (itoa n5) (itoa n6))
        = .ok fileRef b
      ∧ itoa b.startLine = itoa n1 ∧ itoa b.startChar = itoa n2
      ∧ itoa b.endLine = itoa n3 ∧ itoa b.endChar = itoa n4
      ∧ itoa b.statements = itoa n5 ∧ itoa b.covered = itoa n6 := by
  refine ⟨⟨n1, n2, n3, n4, n5, n6⟩, ?_, rfl, rfl, rfl, rfl, rfl, rfl⟩
  rw [parseCoverageLine_mkLine fileRef _ _ _ _ _ _ hfc hfm
      (itoa_noSep n1) (itoa_noSep n2) (itoa_noSep n3) (itoa_noSep n4)
      ⟨(itoa_noSep n5).1, (itoa_noSep n5).2.1⟩ ⟨(itoa_noSep n6).1, (itoa_noSep n6).2.1⟩]
  rw [goAtoi_itoa hr1.1 hr1.2, goAtoi_itoa hr2.1 hr2.2, goAtoi_itoa hr3.1 hr3.2,
      goAtoi_itoa hr4.1 hr4.2, goAtoi_itoa hr5.1 hr5.2, goAtoi_itoa hr6.1 hr6.2]

theorem parseCoverageLine_roundTrip_witness :
    ((':' ∉ (['a', '.', 'g', 'o'] : List Char))
      ∧ (['a', '.', 'g', 'o'] : List Char) ≠ ['m', 'o', 'd', 'e']
      ∧ (-(2 ^ 63) ≤ (6 : Int) ∧ (6 : Int) ≤ 2 ^ 63 - 1)
      ∧ (-(2 ^ 63) ≤ (14 : Int) ∧ (14 : Int) ≤ 2 ^ 63 - 1)
      ∧ (-(2 ^ 63) ≤ (8 : Int) ∧ (8 : Int) ≤ 2 ^ 63 - 1)
      ∧ (-(2 ^ 63) ≤ (2 : Int) ∧ (2 : Int) ≤ 2 ^ 63 - 1)
      ∧ (-(2 ^ 63) ≤ (1 : Int) ∧ (1 : Int) ≤ 2 ^ 63 - 1)
      ∧ (-(2 ^ 63) ≤ (0 : Int) ∧ (0 : Int) ≤ 2 ^ 63 - 1))
    ∧ (∃ b : Block,
        parseCoverageLine
            (mkLine ['a', '.', 'g', 'o'] (itoa 6) (itoa 14) (itoa 8) (itoa 2) (itoa 1) (itoa 0))
          = .ok ['a', '.', 'g', 'o'] b
        ∧ itoa b.startLine = itoa 6 ∧ itoa b.startChar = itoa 14
        ∧ itoa b.endLine = itoa 8 ∧ itoa b.endChar = itoa 2
        ∧ itoa b.statements = itoa 1 ∧ itoa b.covered = itoa 0) :=
  ⟨⟨by decide, by decide, by decide, by decide, by decide, by decide, by decide, by decide⟩,
   parseCoverageLine_roundTrip ['a', '.', 'g', 'o'] 6 14 8 2 1 0
     (by decide) (by decide) (by decide) (by decide) (by decide) (by decide)
     (by decide) (by decide)⟩

/-! ## Lemmas about the emitter -/

theorem lineNums_length (s e : Int) : (lineNums s e).length = (e + 1 - s).toNat := by
  rw [lineNums, List.length_map, List.length_range]

theorem mem_lineNums {s e n : Int} : n ∈ lineNums s e ↔ s ≤ n ∧ n ≤ e := by
  rw [lineNums]
  simp only [List.mem_map, List.mem_range]
  constructor
  · rintro ⟨k, hk, rfl⟩
    omega
  · rintro ⟨hs, he⟩
    exact ⟨(n - s).toNat, by omega, by omega⟩

theorem lineNums_nodup (s e : Int) : (lineNums s e).Nodup := by
  rw [lineNums]
  refine List.Nodup.map ?_ (List.nodup_range _)
  intro a b hab
  simp only [add_right_inj, Nat.cast_inj] at hab
  exact hab

theorem count_lineNums (s e n : Int) :
    (lineNums s e).count n = if s ≤ n ∧ n ≤ e then 1 else 0 := by
  by_cases h : s ≤ n ∧ n ≤ e
  · rw [if_pos h]
    exact List.count_eq_one_of_mem (lineNums_nodup s e) (mem_lineNums.mpr h)
  · rw [if_neg h, List.count_eq_zero, mem_lineNums]
    exact h

theorem daLines_length {b : Block} (h : b.startLine ≤ b.endLine) :
    ((daLines b).length : Int) = b.endLine - b.startLine + 1 := by
  rw [daLines, List.length_map, lineNums_length]
  omega

theorem daLines_nil {b : Block} (h : b.endLine < b.startLine) : daLines b = [] := by
  rw [daLines, lineNums]
  have hz : (b.endLine + 1 - b.startLine).toNat = 0 := by omega
  rw [hz]
  rfl

theorem wrap64_eq_of_range {n : Int} (h1 : -(2 ^ 63) ≤ n) (h2 : n ≤ 2 ^ 63 - 1) :
    wrap64 n = n := by
  rw [wrap64]
  omega

theorem wrap64_range (n : Int) : -(2 ^ 63) ≤ wrap64 n ∧ wrap64 n ≤ 2 ^ 63 - 1 := by
  rw [wrap64]
  constructor <;> omega

theorem wrap64_wrap (a b : Int) : wrap64 (wrap64 a + b) = wrap64 (a + b) := by
  rw [wrap64, wrap64, wrap64]
  omega

theorem daLoopGo_exit {cov e i : Int} (h : e < i) (fuel : Nat)
    (out : List (List Char)) (t c : Int) :
    daLoopGo cov e (fuel + 1) i (out, t, c) = some (out, t, c) := by
  rw [daLoopGo, if_neg (by omega)]

/-- At `e = 2^63 - 1` the loop guard `i ≤ e` holds for every int64 value
(and the wrapped increment keeps `i` an int64 value), so the loop never
exits: the run with `endLine = MaxInt64` — a value the parser can produce
through `Atoi`'s range clamping — diverges. -/
theorem daLoopGo_max_none (cov : Int) :
    ∀ (fuel : Nat) (i : Int) (acc : List (List Char) × Int × Int), i ≤ 2 ^ 63 - 1 →
      daLoopGo cov (2 ^ 63 - 1) fuel i acc = none := by
  intro fuel
  induction fuel with
  | zero => intro i acc h; rfl
  | succ f ih =>
    intro i acc h
    obtain ⟨out, t, c⟩ := acc
    rw [daLoopGo, if_pos h]
    exact ih _ _ ((wrap64_range _).2)

/-- Characterization of every terminating run of the line loop: starting
at an int64 value `i` with `len` iterations left and `e` short of the
int64 maximum, the loop exits after exactly `len` iterations, having
appended one `DA:` line per visited loop value `i, i+1, …, e` and advanced
each counter by `len` modulo int64 wrapping. -/
theorem daLoopGo_run (cov e : Int) :
    ∀ (len fuel : Nat) (i : Int) (out : List (List Char)) (t c : Int),
      -(2 ^ 63) ≤ i → i + (len : Int) = e + 1 → e < 2 ^ 63 - 1 → len < fuel →
      daLoopGo cov e fuel i (out, t, c)
        = some (out ++ (List.range len).map (fun (k : Nat) => daEntry (i + (k : Int)) cov),
                if len = 0 then t else wrap64 (t + (len : Int)),
                if 0 < cov ∧ len ≠ 0 then wrap64 (c + (len : Int)) else c) := by
  intro len
  induction len with
  | zero =>
    intro fuel i out t c hmin hsum hemax hfuel
    match fuel, hfuel with
    | f + 1, _ =>
      rw [daLoopGo_exit (by omega)]
      simp
  | succ k ih =>
    intro fuel i out t c hmin hsum hemax hfuel
    match fuel, hfuel with
    | f + 1, hf =>
      have hile : i ≤ e := by
        have : ((k : Int) + 1) = ((k + 1 : Nat) : Int) := by push_cast; ring
        omega
      rw [daLoopGo, if_pos hile]
      have hwrap : wrap64 (i + 1) = i + 1 := by
        refine wrap64_eq_of_range (by omega) ?_
        omega
      rw [hwrap]
      rw [ih f (i + 1) (out ++ [daEntry i cov]) (wrap64 (t + 1))
          (if 0 < cov then wrap64 (c + 1) else c) (by omega)
          (by push_cast at hsum ⊢; omega) hemax (by omega)]
      simp only [Option.some.injEq, Prod.mk.injEq]
      refine ⟨?_, ?_, ?_⟩
      · rw [List.append_assoc]
        congr 1
        rw [List.range_succ_eq_map, List.map_cons, List.map_map, List.singleton_append]
        congr 1
        · simp
        · refine List.map_congr_left ?_
          intro j hj
          simp only [Function.comp_apply]
          congr 1
          push_cast
          ring
      · by_cases hk : k = 0
        · subst hk
          simp
        · rw [if_neg hk, if_neg (by omega), wrap64_wrap]
          congr 1
          push_cast
          ring
      · by_cases hcov : 0 < cov
        · by_cases hk : k = 0
          · subst hk
            simp [hcov]
          · rw [if_pos hcov, if_pos ⟨hcov, hk⟩, if_pos ⟨hcov, by omega⟩, wrap64_wrap]
            congr 1
            push_cast
            ring
        · simp [hcov]

/-- Terminating behaviour of the per-block loop: when the block's range is
int64-representable and its end line is short of the int64 maximum, the
loop exits, appends exactly the block's `DA:` lines, and advances the
counters (with int64 wrapping) by the number of expanded lines, the
`covered` counter only when the hit count is positive. -/
theorem blockLoop_some (b : Block)
    (hb : b.startLine ≤ b.endLine → (-(2 ^ 63) ≤ b.startLine ∧ b.endLine < 2 ^ 63 - 1))
    (out : List (List Char)) (t c : Int) :
    blockLoop b (out, t, c)
      = some (out ++ daLines b,
          if b.startLine ≤ b.endLine then wrap64 (t + (b.endLine - b.startLine + 1)) else t,
          if 0 < b.covered ∧ b.startLine ≤ b.endLine
          then wrap64 (c + (b.endLine - b.startLine + 1)) else c) := by
  by_cases h : b.startLine ≤ b.endLine
  · obtain ⟨hmin, hmax⟩ := hb h
    have hlen : ((b.endLine + 1 - b.startLine).toNat : Int) = b.endLine - b.startLine + 1 := by
      omega
    rw [blockLoop, daLoopGo_run b.covered b.endLine (b.endLine + 1 - b.startLine).toNat
      (blockFuel b) b.startLine out t c hmin (by omega) hmax (by rw [blockFuel]; omega)]
    have hne : (b.endLine + 1 - b.startLine).toNat ≠ 0 := by omega
    simp only [Option.some.injEq, Prod.mk.injEq]
    refine ⟨?_, ?_, ?_⟩
    · congr 1
      rw [daLines, lineNums, List.map_map]
      refine List.map_congr_left ?_
      intro j hj
      simp
    · rw [if_neg hne, if_pos h, hlen]
    · by_cases hcov : 0 < b.covered
      · rw [if_pos ⟨hcov, hne⟩, if_pos ⟨hcov, h⟩, hlen]
      · rw [if_neg (by tauto), if_neg (by tauto)]
  · push_neg at h
    rw [blockLoop, blockFuel, daLoopGo_exit (by omega), daLines_nil h,
      List.append_nil, if_neg (by omega), if_neg (by rintro ⟨-, hh⟩; omega)]

/-- All `DA:` lines of a record, in emission order. -/
def daAll : List Block → List (List Char)
  | [] => []
  | b :: bs => daLines b ++ daAll bs

/-- The final value of the `total` (lines-found) counter. -/
def lfOf : List Block → Int
  | [] => 0
  | b :: bs => ((daLines b).length : Int) + lfOf bs

/-- The final value of the `covered` (lines-hit) counter. -/
def lhOf : List Block → Int
  | [] => 0
  | b :: bs => (if 0 < b.covered then ((daLines b).length : Int) else 0) + lhOf bs

/-- Terminating behaviour of the block loop from any int64-range counter
state: the per-block `DA:` lines are concatenated in block order and each
counter ends at the int64 wrap of its unwrapped sum. -/
theorem recordLoopFrom_some (bs : List Block)
    (hb : ∀ b ∈ bs, b.startLine ≤ b.endLine →
      (-(2 ^ 63) ≤ b.startLine ∧ b.endLine < 2 ^ 63 - 1)) :
    ∀ (out : List (List Char)) (t c : Int),
      -(2 ^ 63) ≤ t → t ≤ 2 ^ 63 - 1 → -(2 ^ 63) ≤ c → c ≤ 2 ^ 63 - 1 →
      recordLoopFrom (out, t, c) bs
        = some (out ++ daAll bs, wrap64 (t + lfOf bs), wrap64 (c + lhOf bs)) := by
  induction bs with
  | nil =>
    intro out t c ht1 ht2 hc1 hc2
    rw [recordLoopFrom]
    simp [daAll, lfOf, lhOf, wrap64_eq_of_range ht1 ht2, wrap64_eq_of_range hc1 hc2]
  | cons b bs ih =>
    intro out t c ht1 ht2 hc1 hc2
    have hbmem : b.startLine ≤ b.endLine → (-(2 ^ 63) ≤ b.startLine ∧ b.endLine < 2 ^ 63 - 1) :=
      hb b (List.mem_cons_self b bs)
    rw [recordLoopFrom]
    simp only [blockLoop_some b hbmem]
    have hT : -(2 ^ 63) ≤ (if b.startLine ≤ b.endLine
          then wrap64 (t + (b.endLine - b.startLine + 1)) else t)
        ∧ (if b.startLine ≤ b.endLine
          then wrap64 (t + (b.endLine - b.startLine + 1)) else t) ≤ 2 ^ 63 - 1 := by
      split
      · exact wrap64_range _
      · exact ⟨ht1, ht2⟩
    have hC : -(2 ^ 63) ≤ (if 0 < b.covered ∧ b.startLine ≤ b.endLine
          then wrap64 (c + (b.endLine - b.startLine + 1)) else c)
        ∧ (if 0 < b.covered ∧ b.startLine ≤ b.endLine
          then wrap64 (c + (b.endLine - b.startLine + 1)) else c) ≤ 2 ^ 63 - 1 := by
      split
      · exact wrap64_range _
      · exact ⟨hc1, hc2⟩
    rw [ih (fun x hx => hb x (List.mem_cons_of_mem b hx)) _ _ _ hT.1 hT.2 hC.1 hC.2]
    simp only [Option.some.injEq, Prod.mk.injEq]
    refine ⟨?_, ?_, ?_⟩
    · rw [daAll, List.append_assoc]
    · rw [lfOf]
      by_cases h : b.startLine ≤ b.endLine
      · rw [if_pos h, wrap64_wrap, daLines_length h]
        congr 1
        ring
      · rw [if_neg h, daLines_nil (by omega)]
        simp
    · rw [lhOf]
      by_cases hcs : 0 < b.covered ∧ b.startLine ≤ b.endLine
      · rw [if_pos hcs, wrap64_wrap, if_pos hcs.1, daLines_length hcs.2]
        congr 1
        ring
      · rw [if_neg hcs]
        by_cases hcov : 0 < b.covered
        · have hse : ¬ b.startLine ≤ b.endLine := by tauto
          rw [if_pos hcov, daLines_nil (by omega)]
          simp
        · rw [if_neg hcov]
          simp

/-- The whole block loop, from zeroed counters, on a terminating record. -/
theorem recordLoop_some (bs : List Block)
    (hb : ∀ b ∈ bs, b.startLine ≤ b.endLine →
      (-(2 ^ 63) ≤ b.startLine ∧ b.endLine < 2 ^ 63 - 1)) :
    recordLoop bs = some (daAll bs, wrap64 (lfOf bs), wrap64 (lhOf bs)) := by
  rw [recordLoop, recordLoopFrom_some bs hb [] 0 0 (by omega) (by omega) (by omega) (by omega)]
  simp

theorem counters_spec (l : List Block) : 0 ≤ lfOf l ∧ 0 ≤ lhOf l ∧ lhOf l ≤ lfOf l := by
  induction l with
  | nil => simp [lfOf, lhOf]
  | cons b t ih =>
    obtain ⟨i1, i2, i3⟩ := ih
    have hlen : (0 : Int) ≤ ((daLines b).length : Int) := by positivity
    simp only [lfOf, lhOf]
    by_cases hc : 0 < b.covered <;> simp [hc] <;> omega

/-! ## Claim theorems: the emitter -/

/-- C2 counterexample: the block with startLine 1 and endLine 2^63 − 1
(the value `Atoi`'s range clamping produces, as `parseCoverageLine_overflow_cex`
shows) satisfies the claim's hypothesis startLine ≤ endLine, yet the line
loop never exits — no fuel bound reaches a state in which
endLine − startLine + 1 `DA:` lines have been produced and the loop has
stopped, so the emitter never completes this block's record at all. -/
theorem writeLcovRecord_block_expansion_cex :
    (Block.mk 1 1 (2 ^ 63 - 1) 1 1 1).startLine ≤ (Block.mk 1 1 (2 ^ 63 - 1) 1 1 1).endLine
    ∧ blockLoop (Block.mk 1 1 (2 ^ 63 - 1) 1 1 1) ([], 0, 0) = none
    ∧ daLoopDiverges 1 (2 ^ 63 - 1) 1 :=
  ⟨by decide, daLoopGo_max_none 1 (blockFuel (Block.mk 1 1 (2 ^ 63 - 1) 1 1 1)) 1 ([], 0, 0)
     (by decide),
   fun fuel acc => daLoopGo_max_none 1 fuel 1 acc (by decide)⟩

/-- C2 (amended): for every block with an int64-representable startLine,
startLine ≤ endLine, and endLine short of the int64 maximum, the loop
exits having produced exactly endLine − startLine + 1 `DA:` lines — one
for each integer line number of the range, each range line occurring
exactly once and pairing the line number with the block's hit count — and
having incremented the wrapping int64 lines-found counter once per emitted
`DA:` line and the lines-hit counter once per emitted `DA:` line when the
block's hit count is positive.  When startLine ≤ endLine = 2^63 − 1 (a
value reachable only through `Atoi`'s range clamping) the loop guard holds
for every int64 value and the loop never exits. -/
theorem writeLcovRecord_block_expansion (b : Block)
    (h : b.startLine ≤ b.endLine) (hmin : -(2 ^ 63) ≤ b.startLine) :
    (b.endLine < 2 ^ 63 - 1 →
      ((daLines b).length : Int) = b.endLine - b.startLine + 1
      ∧ daLines b = (lineNums b.startLine b.endLine).map (fun i => daEntry i b.covered)
      ∧ (∀ n : Int, n ∈ lineNums b.startLine b.endLine ↔ b.startLine ≤ n ∧ n ≤ b.endLine)
      ∧ (lineNums b.startLine b.endLine).Nodup
      ∧ (∀ (out : List (List Char)) (t c : Int), blockLoop b (out, t, c)
          = some (out ++ daLines b, wrap64 (t + (b.endLine - b.startLine + 1)),
              if 0 < b.covered then wrap64 (c + (b.endLine - b.startLine + 1)) else c)))
    ∧ (b.endLine = 2 ^ 63 - 1 → daLoopDiverges b.covered b.endLine b.startLine) := by
  constructor
  · intro hmax
    refine ⟨daLines_length h, rfl, fun n => mem_lineNums, lineNums_nodup _ _, fun out t c => ?_⟩
    rw [blockLoop_some b (fun _ => ⟨hmin, hmax⟩)]
    simp [h]
  · intro hmax fuel acc
    rw [hmax]
    exact daLoopGo_max_none b.covered fuel b.startLine acc (by omega)

theorem writeLcovRecord_block_expansion_witness :
    ((Block.mk 3 10 5 2 2 1).startLine ≤ (Block.mk 3 10 5 2 2 1).endLine
      ∧ -(2 ^ 63) ≤ (Block.mk 3 10 5 2 2 1).startLine)
    ∧ (((Block.mk 3 10 5 2 2 1).endLine < 2 ^ 63 - 1 →
        ((daLines (Block.mk 3 10 5 2 2 1)).length : Int)
            = (Block.mk 3 10 5 2 2 1).endLine - (Block.mk 3 10 5 2 2 1).startLine + 1
        ∧ daLines (Block.mk 3 10 5 2 2 1)
            = (lineNums (Block.mk 3 10 5 2 2 1).startLine (Block.mk 3 10 5 2 2 1).endLine).map
                (fun i => daEntry i (Block.mk 3 10 5 2 2 1).covered)
        ∧ (∀ n : Int,
             n ∈ lineNums (Block.mk 3 10 5 2 2 1).startLine (Block.mk 3 10 5 2 2 1).endLine
               ↔ (Block.mk 3 10 5 2 2 1).startLine ≤ n ∧ n ≤ (Block.mk 3 10 5 2 2 1).endLine)
        ∧ (lineNums (Block.mk 3 10 5 2 2 1).startLine (Block.mk 3 10 5 2 2 1).endLine).Nodup
        ∧ (∀ (out : List (List Char)) (t c : Int),
             blockLoop (Block.mk 3 10 5 2 2 1) (out, t, c)
               = some (out ++ daLines (Block.mk 3 10 5 2 2 1),
                   wrap64 (t + ((Block.mk 3 10 5 2 2 1).endLine
                     - (Block.mk 3 10 5 2 2 1).startLine + 1)),
                   if 0 < (Block.mk 3 10 5 2 2 1).covered
                   then wrap64 (c + ((Block.mk 3 10 5 2 2 1).endLine
                     - (Block.mk 3 10 5 2 2 1).startLine + 1))
                   else c)))
      ∧ ((Block.mk 3 10 5 2 2 1).endLine = 2 ^ 63 - 1 →
          daLoopDiverges (Block.mk 3 10 5 2 2 1).covered (Block.mk 3 10 5 2 2 1).endLine
            (Block.mk 3 10 5 2 2 1).startLine)) :=
  ⟨⟨by decide, by decide⟩,
   writeLcovRecord_block_expansion (Block.mk 3 10 5 2 2 1) (by decide) (by decide)⟩

/-- C3 counterexample: two identical blocks spanning 1 .. 2^63 − 1 overlap
at line 1 and satisfy the claim's hypotheses, yet the record loop never
completes — the first block's line loop diverges — so line 1 never appears
twice (or at all) among the DA entries of an emitted record. -/
theorem writeLcovRecord_overlap_independent_cex :
    (Block.mk 1 1 (2 ^ 63 - 1) 1 1 1).startLine ≤ (1 : Int)
    ∧ (1 : Int) ≤ (Block.mk 1 1 (2 ^ 63 - 1) 1 1 1).endLine
    ∧ recordLoop [Block.mk 1 1 (2 ^ 63 - 1) 1 1 1, Block.mk 1 1 (2 ^ 63 - 1) 1 1 1] = none := by
  refine ⟨by decide, by decide, ?_⟩
  rw [recordLoop, recordLoopFrom]
  have hb : blockLoop (Block.mk 1 1 (2 ^ 63 - 1) 1 1 1) ([], 0, 0) = none :=
    daLoopGo_max_none 1 (blockFuel (Block.mk 1 1 (2 ^ 63 - 1) 1 1 1)) 1 ([], 0, 0) (by decide)
  simp only [hb]

/-- C3 (amended): for two overlapping blocks with int64-representable
start lines and end lines short of the int64 maximum, the blocks are
expanded independently — a line number inside both ranges occurs twice
among the record's `DA:` line numbers, the emitted `DA:` lines are the
concatenation of each block's own lines, and the LF and LH counters end at
the int64 wrap of the sums of the per-block contributions, with no merging
or deduplication. -/
theorem writeLcovRecord_overlap_independent (b1 b2 : Block) (n : Int)
    (h1 : b1.startLine ≤ n) (h2 : n ≤ b1.endLine)
    (h3 : b2.startLine ≤ n) (h4 : n ≤ b2.endLine)
    (hr1 : -(2 ^ 63) ≤ b1.startLine ∧ b1.endLine < 2 ^ 63 - 1)
    (hr2 : -(2 ^ 63) ≤ b2.startLine ∧ b2.endLine < 2 ^ 63 - 1) :
    (daNums [b1, b2]).count n = 2
    ∧ recordLoop [b1, b2] = some (daLines b1 ++ daLines b2,
        wrap64 (((daLines b1).length : Int) + ((daLines b2).length : Int)),
        wrap64 ((if 0 < b1.covered then ((daLines b1).length : Int) else 0)
                + (if 0 < b2.covered then ((daLines b2).length : Int) else 0))) := by
  constructor
  · simp [daNums, List.count_append, count_lineNums, h1, h2, h3, h4]
  · have hb : ∀ x ∈ [b1, b2], x.startLine ≤ x.endLine →
        (-(2 ^ 63) ≤ x.startLine ∧ x.endLine < 2 ^ 63 - 1) := by
      intro x hx hse
      rcases List.mem_cons.mp hx with rfl | hx2
      · exact hr1
      · rcases List.mem_cons.mp hx2 with rfl | hx3
        · exact hr2
        · cases hx3
    rw [recordLoop_some [b1, b2] hb]
    simp [daAll, lfOf, lhOf]

theorem writeLcovRecord_overlap_independent_witness :
    ((Block.mk 3 1 5 1 1 2).startLine ≤ (4 : Int) ∧ (4 : Int) ≤ (Block.mk 3 1 5 1 1 2).endLine
      ∧ (Block.mk 4 1 6 1 1 0).startLine ≤ (4 : Int) ∧ (4 : Int) ≤ (Block.mk 4 1 6 1 1 0).endLine
      ∧ (-(2 ^ 63) ≤ (Block.mk 3 1 5 1 1 2).startLine
          ∧ (Block.mk 3 1 5 1 1 2).endLine < 2 ^ 63 - 1)
      ∧ (-(2 ^ 63) ≤ (Block.mk 4 1 6 1 1 0).startLine
          ∧ (Block.mk 4 1 6 1 1 0).endLine < 2 ^ 63 - 1))
    ∧ ((daNums [Block.mk 3 1 5 1 1 2, Block.mk 4 1 6 1 1 0]).count 4 = 2
       ∧ recordLoop [Block.mk 3 1 5 1 1 2, Block.mk 4 1 6 1 1 0]
           = some (daLines (Block.mk 3 1 5 1 1 2) ++ daLines (Block.mk 4 1 6 1 1 0),
               wrap64 (((daLines (Block.mk 3 1 5 1 1 2)).length : Int)
                 + ((daLines (Block.mk 4 1 6 1 1 0)).length : Int)),
               wrap64 ((if 0 < (Block.mk 3 1 5 1 1 2).covered
                        then ((daLines (Block.mk 3 1 5 1 1 2)).length : Int) else 0)
                 + (if 0 < (Block.mk 4 1 6 1 1 0).covered
                    then ((daLines (Block.mk 4 1 6 1 1 0)).length : Int) else 0)))) :=
  ⟨⟨by decide, by decide, by decide, by decide, ⟨by decide, by decide⟩, ⟨by decide, by decide⟩⟩,
   writeLcovRecord_overlap_independent (Block.mk 3 1 5 1 1 2) (Block.mk 4 1 6 1 1 0) 4
     (by decide) (by decide) (by decide) (by decide)
     ⟨by decide, by decide⟩ ⟨by decide, by decide⟩⟩

/-- C10 counterexample: the block from startLine −2 to endLine 2^63 − 2
(every field a plain parseable decimal) expands 2^63 + 1 lines, so the
wrapping int64 lines-found counter ends at 1 − 2^63 < 0: the emitted LF is
negative, contradicting the claimed 0 ≤ LH ≤ LF for every block list. -/
theorem writeLcovRecord_counter_invariant_cex :
    recordLoop [Block.mk (-2) 1 (2 ^ 63 - 2) 1 1 1]
      = some (daAll [Block.mk (-2) 1 (2 ^ 63 - 2) 1 1 1], 1 - 2 ^ 63, 1 - 2 ^ 63)
    ∧ (1 - 2 ^ 63 : Int) < 0 := by
  refine ⟨?_, by decide⟩
  have hb : ∀ x ∈ [Block.mk (-2) 1 (2 ^ 63 - 2) 1 1 1], x.startLine ≤ x.endLine →
      (-(2 ^ 63) ≤ x.startLine ∧ x.endLine < 2 ^ 63 - 1) := by
    intro x hx hse
    rcases List.mem_cons.mp hx with rfl | hx2
    · exact ⟨by decide, by decide⟩
    · cases hx2
  rw [recordLoop_some [Block.mk (-2) 1 (2 ^ 63 - 2) 1 1 1] hb]
  have hlf : lfOf [Block.mk (-2) 1 (2 ^ 63 - 2) 1 1 1] = 2 ^ 63 + 1 := by
    rw [lfOf, lfOf, daLines_length (by decide)]
    decide
  have hlh : lhOf [Block.mk (-2) 1 (2 ^ 63 - 2) 1 1 1] = 2 ^ 63 + 1 := by
    rw [lhOf, lhOf, if_pos (by decide), daLines_length (by decide)]
    decide
  have hw : wrap64 (2 ^ 63 + 1) = 1 - 2 ^ 63 := by
    rw [wrap64]
    decide
  rw [hlf, hlh, hw]

/-- C10 (amended): whenever every nonempty-range block has an
int64-representable start line and an end line short of the int64 maximum
(so the record completes) and the total number of expanded lines is below
2^63 (so the wrapping lines-found counter stays exact), the completed
record's counters satisfy 0 ≤ LH ≤ LF; and a block with
startLine > endLine contributes zero `DA:` lines and leaves both counters
unchanged.  With 2^63 or more expanded lines the wrapping int64 counters
can leave LF negative. -/
theorem writeLcovRecord_counter_invariant (bs : List Block)
    (hb : ∀ b ∈ bs, b.startLine ≤ b.endLine →
      (-(2 ^ 63) ≤ b.startLine ∧ b.endLine < 2 ^ 63 - 1))
    (hbound : lfOf bs < 2 ^ 63) :
    recordLoop bs = some (daAll bs, lfOf bs, lhOf bs)
    ∧ 0 ≤ lfOf bs ∧ 0 ≤ lhOf bs ∧ lhOf bs ≤ lfOf bs
    ∧ (∀ (b : Block) (out : List (List Char)) (t c : Int), b.endLine < b.startLine →
        blockLoop b (out, t, c) = some (out, t, c) ∧ daLines b = []) := by
  obtain ⟨g1, g2, g3⟩ := counters_spec bs
  refine ⟨?_, g1, g2, g3, ?_⟩
  · rw [recordLoop_some bs hb, wrap64_eq_of_range (by omega) (by omega),
      wrap64_eq_of_range (by omega) (by omega)]
  · intro b out t c hbe
    have hnil := daLines_nil hbe
    refine ⟨?_, hnil⟩
    rw [blockLoop_some b (fun hse => absurd hse (by omega)), hnil, List.append_nil,
      if_neg (by omega), if_neg (by rintro ⟨-, hh⟩; omega)]

theorem writeLcovRecord_counter_invariant_witness :
    ((∀ b ∈ [Block.mk 1 1 2 1 1 3], b.startLine ≤ b.endLine →
        (-(2 ^ 63) ≤ b.startLine ∧ b.endLine < 2 ^ 63 - 1))
      ∧ lfOf [Block.mk 1 1 2 1 1 3] < 2 ^ 63)
    ∧ (recordLoop [Block.mk 1 1 2 1 1 3]
         = some (daAll [Block.mk 1 1 2 1 1 3], lfOf [Block.mk 1 1 2 1 1 3],
             lhOf [Block.mk 1 1 2 1 1 3])
       ∧ 0 ≤ lfOf [Block.mk 1 1 2 1 1 3] ∧ 0 ≤ lhOf [Block.mk 1 1 2 1 1 3]
       ∧ lhOf [Block.mk 1 1 2 1 1 3] ≤ lfOf [Block.mk 1 1 2 1 1 3]
       ∧ (∀ (b : Block) (out : List (List Char)) (t c : Int), b.endLine < b.startLine →
           blockLoop b (out, t, c) = some (out, t, c) ∧ daLines b = [])) :=
  ⟨⟨by decide, by decide⟩,
   writeLcovRecord_counter_invariant [Block.mk 1 1 2 1 1 3] (by decide) (by decide)⟩

/-! ## Lemmas about `pathDir`, the ascent measure, and the root locator -/

theorem dropWhile_head_false {f : Char → Bool} :
    ∀ {l : List Char} {c : Char} {cs : List Char}, l.dropWhile f = c :: cs → f c = false := by
  intro l
  induction l with
  | nil => intro c cs h; simp [List.dropWhile] at h
  | cons x xs ih =>
    intro c cs h
    rw [List.dropWhile_cons] at h
    by_cases hx : f x = true
    · rw [if_pos hx] at h
      exact ih h
    · rw [if_neg hx] at h
      cases h
      simpa using hx

theorem dropWhile_slash_ne_nil {l : List Char} (h : '/' ∈ l) :
    l.dropWhile (fun c => c ≠ '/') ≠ [] := by
  rw [ne_eq, List.dropWhile_eq_nil_iff]
  push_neg
  exact ⟨'/', h, by simp⟩

theorem pathDir_no_slash {p : List Char} (h : '/' ∉ p) : pathDir p = ['.'] := by
  have h1 : p.reverse.dropWhile (fun c => c ≠ '/') = [] := by
    rw [List.dropWhile_eq_nil_iff]
    intro x hx
    simp only [decide_eq_true_eq]
    exact fun heq => h (heq ▸ List.mem_reverse.mp hx)
  have hh : p.head? ≠ some '/' := by
    cases p with
    | nil => simp
    | cons x t =>
      simp only [List.head?_cons, ne_eq, Option.some.injEq]
      exact fun hx => h (hx ▸ List.mem_cons_self x t)
  show (if (p.reverse.dropWhile (fun c => c ≠ '/')).dropWhile (fun c => c = '/') = []
        then (if p.head? = some '/' then ['/'] else ['.'])
        else ((p.reverse.dropWhile (fun c => c ≠ '/')).dropWhile (fun c => c = '/')).reverse)
      = ['.']
  rw [h1, List.dropWhile_nil, if_pos rfl, if_neg hh]

theorem pathMeasure_le (q : List Char) : pathMeasure q ≤ q.length + 2 := by
  rw [pathMeasure]
  split
  · omega
  · split <;> omega

/-- Strict decrease of the ascent measure at every non-fixed-point step of
`pathDir`: this is the termination argument of `findRepositoryRoot`. -/
theorem pathDir_lt {p : List Char} (h : pathDir p ≠ p) :
    pathMeasure (pathDir p) < pathMeasure p := by
  by_cases hs : '/' ∈ p
  · by_cases hr2 : (p.reverse.dropWhile (fun c => c ≠ '/')).dropWhile (fun c => c = '/') = []
    · -- the part of the path before (and including) the last separator is all slashes
      have hr1ne : p.reverse.dropWhile (fun c => c ≠ '/') ≠ [] :=
        dropWhile_slash_ne_nil (List.mem_reverse.mpr hs)
      have hall : ∀ x ∈ p.reverse.dropWhile (fun c => c ≠ '/'), x = '/' := by
        intro x hx
        have := (List.dropWhile_eq_nil_iff.mp hr2) x hx
        simpa using this
      have hsplitp : p.reverse.takeWhile (fun c => c ≠ '/')
          ++ p.reverse.dropWhile (fun c => c ≠ '/') = p.reverse :=
        List.takeWhile_append_dropWhile _ _
      have hp : p = (p.reverse.dropWhile (fun c => c ≠ '/')).reverse
          ++ (p.reverse.takeWhile (fun c => c ≠ '/')).reverse := by
        have := congrArg List.reverse hsplitp
        rw [List.reverse_append, List.reverse_reverse] at this
        exact this.symm
      rcases hrev : (p.reverse.dropWhile (fun c => c ≠ '/')).reverse with - | ⟨d, ds⟩
      · exact absurd (by simpa using hrev) hr1ne
      · have hd : d = '/' := hall d (by
          refine List.mem_reverse.mp ?_
          rw [hrev]
          exact List.mem_cons_self d ds)
        have hph : p.head? = some '/' := by
          rw [hp, hrev, hd]
          rfl
        have hdir : pathDir p = ['/'] := by
          show (if (p.reverse.dropWhile (fun c => c ≠ '/')).dropWhile (fun c => c = '/') = []
                then (if p.head? = some '/' then ['/'] else ['.'])
                else ((p.reverse.dropWhile (fun c => c ≠ '/')).dropWhile (fun c => c = '/')).reverse)
              = ['/']
          rw [if_pos hr2, if_pos hph]
        have hplen : 2 ≤ p.length := by
          by_contra hlt
          push_neg at hlt
          have hlen := congrArg List.length hp
          rw [hrev, List.length_append, List.length_cons] at hlen
          have hds : ds = [] := List.length_eq_zero.mp (by omega)
          have htw : (p.reverse.takeWhile (fun c => c ≠ '/')).reverse = ([] : List Char) :=
            List.length_eq_zero.mp (by omega)
          rw [hrev, hds, htw] at hp
          apply h
          rw [hdir, hp, hd]
          rfl
        rw [hdir]
        have hm1 : pathMeasure ['/'] = 3 := by decide
        have hm2 : pathMeasure p = p.length + 2 := by rw [pathMeasure, if_pos hs]
        omega
    · -- the directory part survives: it is a strictly shorter suffix of the path
      have hdir : pathDir p
          = ((p.reverse.dropWhile (fun c => c ≠ '/')).dropWhile (fun c => c = '/')).reverse := by
        show (if (p.reverse.dropWhile (fun c => c ≠ '/')).dropWhile (fun c => c = '/') = []
              then (if p.head? = some '/' then ['/'] else ['.'])
              else ((p.reverse.dropWhile (fun c => c ≠ '/')).dropWhile (fun c => c = '/')).reverse)
            = ((p.reverse.dropWhile (fun c => c ≠ '/')).dropWhile (fun c => c = '/')).reverse
        rw [if_neg hr2]
      have hsuf : (p.reverse.dropWhile (fun c => c ≠ '/')).dropWhile (fun c => c = '/')
          <:+ p.reverse :=
        (List.dropWhile_suffix _).trans (List.dropWhile_suffix _)
      have hlt : ((p.reverse.dropWhile (fun c => c ≠ '/')).dropWhile (fun c => c = '/')).length
          < p.length := by
        rcases Nat.lt_or_ge ((p.reverse.dropWhile (fun c => c ≠ '/')).dropWhile
            (fun c => c = '/')).length p.length with hl | hl
        · exact hl
        · exfalso
          have hle := hsuf.length_le
          rw [List.length_reverse] at hle
          have heq := hsuf.eq_of_length (by rw [List.length_reverse]; omega)
          apply h
          rw [hdir, heq, List.reverse_reverse]
      have := pathMeasure_le (pathDir p)
      have hm2 : pathMeasure p = p.length + 2 := by rw [pathMeasure, if_pos hs]
      rw [hdir] at this ⊢
      rw [List.length_reverse] at this
      omega
  · have hd := pathDir_no_slash hs
    rw [hd] at h ⊢
    have hp : p ≠ ['.'] := fun he => h (by rw [he])
    have hm1 : pathMeasure ['.'] = 0 := by decide
    have hm2 : pathMeasure p = 1 := by
      rw [pathMeasure, if_neg hs, if_neg hp]
    omega

theorem findRootGo_fuel (isDir : List Char → Bool) :
    ∀ f g dir, pathMeasure dir < f → pathMeasure dir < g →
      findRootGo isDir f dir = findRootGo isDir g dir := by
  intro f
  induction f with
  | zero => intro g dir h; omega
  | succ f ih =>
    intro g dir hf hg
    cases g with
    | zero => omega
    | succ g =>
      simp only [findRootGo]
      by_cases h1 : hasVcsMarker isDir dir = true
      · rw [if_pos h1, if_pos h1]
      · rw [if_neg h1, if_neg h1]
        by_cases h2 : pathDir dir = dir
        · rw [if_pos h2, if_pos h2]
        · rw [if_neg h2, if_neg h2]
          have hlt := pathDir_lt h2
          exact ih g (pathDir dir) (by omega) (by omega)

/-- The fuel supplied by `findRepositoryRoot` always suffices, so the
function satisfies exactly the recursion of the Go source: test the current
directory, stop when the parent equals the current directory, otherwise
ascend. -/
theorem findRepositoryRoot_eq (isDir : List Char → Bool) (dir : List Char) :
    findRepositoryRoot isDir dir =
      if hasVcsMarker isDir dir then (dir, true)
      else if pathDir dir = dir then ([], false)
      else findRepositoryRoot isDir (pathDir dir) := by
  rw [findRepositoryRoot, findRootGo]
  by_cases h1 : hasVcsMarker isDir dir = true
  · rw [if_pos h1, if_pos h1]
  · rw [if_neg h1, if_neg h1]
    by_cases h2 : pathDir dir = dir
    · rw [if_pos h2, if_pos h2]
    · rw [if_neg h2, if_neg h2, findRepositoryRoot]
      exact findRootGo_fuel isDir (pathMeasure dir) (pathMeasure (pathDir dir) + 1) (pathDir dir)
        (pathDir_lt h2) (by omega)

theorem ascentGo_fuel :
    ∀ f g dir, pathMeasure dir < f → pathMeasure dir < g → ascentGo f dir = ascentGo g dir := by
  intro f
  induction f with
  | zero => intro g dir h; omega
  | succ f ih =>
    intro g dir hf hg
    cases g with
    | zero => omega
    | succ g =>
      simp only [ascentGo]
      by_cases h2 : pathDir dir = dir
      · rw [if_pos h2, if_pos h2]
      · rw [if_neg h2, if_neg h2]
        have hlt := pathDir_lt h2
        rw [ih g (pathDir dir) (by omega) (by omega)]

theorem ascentChain_eq (dir : List Char) :
    ascentChain dir =
      if pathDir dir = dir then [dir] else dir :: ascentChain (pathDir dir) := by
  rw [ascentChain, ascentGo]
  by_cases h2 : pathDir dir = dir
  · rw [if_pos h2, if_pos h2]
  · rw [if_neg h2, if_neg h2, ascentChain]
    rw [ascentGo_fuel (pathMeasure dir) (pathMeasure (pathDir dir) + 1) (pathDir dir)
      (pathDir_lt h2) (by omega)]

/-! ## Claim theorems: repository-root locator and shorten -/

/-- C7: `findRepositoryRoot` terminates on every starting directory — the
finite ascent chain exists, starts at the given directory, proceeds parent
by parent through non-fixed points, and ends exactly at the first directory
whose parent is itself — and the function returns the first (innermost)
chain element that directly contains one of the four VCS markers with
found=true, or `("", false)` when no chain element does. -/
theorem findRepositoryRoot_characterized (isDir : List Char → Bool) (d : List Char) :
    findRepositoryRoot isDir d =
      (match (ascentChain d).find? (fun a => hasVcsMarker isDir a) with
       | some r => (r, true)
       | none => ([], false))
    ∧ (ascentChain d).head? = some d
    ∧ (∀ l, (ascentChain d).getLast? = some l → pathDir l = l)
    ∧ List.Chain' (fun a b => pathDir a = b ∧ a ≠ b) (ascentChain d) := by
  suffices H : ∀ μ : Nat, ∀ d : List Char, pathMeasure d < μ →
      (findRepositoryRoot isDir d =
        (match (ascentChain d).find? (fun a => hasVcsMarker isDir a) with
         | some r => (r, true)
         | none => ([], false))
      ∧ (ascentChain d).head? = some d
      ∧ (∀ l, (ascentChain d).getLast? = some l → pathDir l = l)
      ∧ List.Chain' (fun a b => pathDir a = b ∧ a ≠ b) (ascentChain d)) by
    exact H (pathMeasure d + 1) d (by omega)
  intro μ
  induction μ with
  | zero => intro d h; omega
  | succ μ ih =>
    intro d hμ
    by_cases h2 : pathDir d = d
    · rw [ascentChain_eq, if_pos h2, findRepositoryRoot_eq]
      refine ⟨?_, rfl, ?_, List.chain'_singleton d⟩
      · by_cases h1 : hasVcsMarker isDir d = true
        · rw [if_pos h1, List.find?_cons_of_pos _ h1]
        · rw [if_neg h1, if_pos h2, List.find?_cons_of_neg _ h1]
          rfl
      · intro l hl
        simp only [List.getLast?_singleton, Option.some.injEq] at hl
        rw [← hl]
        exact h2
    · have hlt := pathDir_lt h2
      obtain ⟨ih1, ih2, ih3, ih4⟩ := ih (pathDir d) (by omega)
      rw [ascentChain_eq, if_neg h2]
      have hne : ascentChain (pathDir d) ≠ [] := by
        intro he
        rw [he] at ih2
        simp at ih2
      refine ⟨?_, rfl, ?_, ?_⟩
      · by_cases h1 : hasVcsMarker isDir d = true
        · rw [findRepositoryRoot_eq, if_pos h1, List.find?_cons_of_pos _ h1]
        · rw [findRepositoryRoot_eq, if_neg h1, if_neg h2, List.find?_cons_of_neg _ h1]
          exact ih1
      · intro l hl
        rcases hch : ascentChain (pathDir d) with - | ⟨x, t⟩
        · exact absurd hch hne
        · rw [hch, List.getLast?_cons_cons] at hl
          apply ih3
          rw [hch]
          exact hl
      · rcases hch : ascentChain (pathDir d) with - | ⟨x, t⟩
        · exact absurd hch hne
        · have hx : x = pathDir d := by
            rw [hch] at ih2
            simpa using ih2
          rw [List.chain'_cons]
          exact ⟨⟨hx.symm, fun he => h2 (he.trans hx).symm⟩, hch ▸ ih4⟩

/-- C6 counterexample: with a filesystem in which both `/r/.git` and
`/r/s/.git` are directories, the code applied to the path `/r/s` finds the
root `/r/s` (it searches from the path itself, which here directly contains
a marker) and returns `/r/s` unchanged, while the claim — findRoot on the
directory portion `/r` — would strip the root prefix and produce `s`. -/
def cexIsDir (p : List Char) : Bool :=
  p = ['/', 'r', '/', 's', '/', '.', 'g', 'i', 't'] ∨ p = ['/', 'r', '/', '.', 'g', 'i', 't']

theorem getCoverallsSourceFileName_cex :
    getCoverallsSourceFileName cexIsDir ['/', 'r', '/', 's'] = ['/', 'r', '/', 's']
    ∧ getCoverallsSourceFileNameSpec cexIsDir ['/', 'r', '/', 's'] = ['s']
    ∧ findRepositoryRoot cexIsDir (pathDir ['/', 'r', '/', 's']) = (['/', 'r'], true)
    ∧ (['/', 'r', '/', 's'] : List Char) ≠ ['s'] := by
  decide

/-- C6 (amended): `getCoverallsSourceFileName` computes findRoot on the
path itself, not on its directory portion; whenever the path itself does
not directly contain a VCS marker — in particular for every path naming an
ordinary file — the two computations coincide: on success the root prefix
plus separator is stripped, and with no root found the path is returned
unchanged. -/
theorem getCoverallsSourceFileName_agrees (isDir : List Char → Bool) (name : List Char)
    (h : hasVcsMarker isDir name = false) :
    getCoverallsSourceFileName isDir name = getCoverallsSourceFileNameSpec isDir name := by
  rw [getCoverallsSourceFileName, getCoverallsSourceFileNameSpec]
  by_cases h2 : pathDir name = name
  · rw [findRepositoryRoot_eq, if_neg (by simp [h]), if_pos h2, h2,
      findRepositoryRoot_eq, if_neg (by simp [h]), if_pos h2]
  · rw [findRepositoryRoot_eq, if_neg (by simp [h]), if_neg h2]

/-- Oracle for the amended-C6 witness: only `/r/.git` is a directory. -/
def isDirW (p : List Char) : Bool := p = ['/', 'r', '/', '.', 'g', 'i', 't']

theorem getCoverallsSourceFileName_agrees_witness :
    hasVcsMarker isDirW ['/', 'r', '/', 's', '/', 'f', '.', 'g', 'o'] = false
    ∧ getCoverallsSourceFileName isDirW ['/', 'r', '/', 's', '/', 'f', '.', 'g', 'o']
        = getCoverallsSourceFileNameSpec isDirW ['/', 'r', '/', 's', '/', 'f', '.', 'g', 'o'] :=
  ⟨by decide,
   getCoverallsSourceFileName_agrees isDirW ['/', 'r', '/', 's', '/', 'f', '.', 'g', 'o']
     (by decide)⟩

theorem findRepositoryRoot_characterized_witness :
    findRepositoryRoot isDirW ['/', 'r', '/', 's'] =
      (match (ascentChain ['/', 'r', '/', 's']).find? (fun a => hasVcsMarker isDirW a) with
       | some r => (r, true)
       | none => ([], false))
    ∧ (ascentChain ['/', 'r', '/', 's']).head? = some ['/', 'r', '/', 's']
    ∧ (∀ l, (ascentChain ['/', 'r', '/', 's']).getLast? = some l → pathDir l = l)
    ∧ List.Chain' (fun a b => pathDir a = b ∧ a ≠ b) (ascentChain ['/', 'r', '/', 's']) :=
  findRepositoryRoot_characterized isDirW ['/', 'r', '/', 's']

/-! ## Claim theorem: the package-directory cache -/

/-- C8: resolving a second reference with the same directory portion
returns exactly the result of the first resolution — the same path on
success, the same error on failure — performs no second package lookup,
leaves the cache unchanged, and the first resolution's outcome (success or
failure alike) is stored in the cache under the directory fragment. -/
theorem findFile_memoized (imp : List Char → Except (List Char) (List Char))
    (c0 : List (List Char × CacheResult)) (p q : List Char)
    (hdir : (splitPath q).1 = (splitPath p).1) :
    (findFile imp (findFile imp c0 p).cache q).file = (findFile imp c0 p).file
    ∧ (findFile imp (findFile imp c0 p).cache q).err = (findFile imp c0 p).err
    ∧ (findFile imp (findFile imp c0 p).cache q).importCalls = 0
    ∧ (findFile imp (findFile imp c0 p).cache q).cache = (findFile imp c0 p).cache
    ∧ cacheFind (findFile imp c0 p).cache (splitPath p).1
        = some ⟨(findFile imp c0 p).file, (findFile imp c0 p).err⟩ := by
  cases hc : cacheFind c0 (splitPath p).1 with
  | some r =>
    have h1 : findFile imp c0 p = ⟨r.file, r.err, c0, 0⟩ := by
      rw [findFile]
      simp only [hc]
    rw [h1]
    have h2 : findFile imp c0 q = ⟨r.file, r.err, c0, 0⟩ := by
      rw [findFile]
      simp only [hdir, hc]
    exact ⟨by rw [h2], by rw [h2], by rw [h2], by rw [h2], by simp [hc]⟩
  | none =>
    cases him : imp (splitPath p).1 with
    | error e =>
      have h1 : findFile imp c0 p
          = ⟨[], some (findFileErr (splitPath p).2 e),
             ((splitPath p).1, ⟨[], some (findFileErr (splitPath p).2 e)⟩) :: c0, 1⟩ := by
        rw [findFile]
        simp only [hc, him]
      rw [h1]
      have h2 : findFile imp
          (((splitPath p).1, (⟨[], some (findFileErr (splitPath p).2 e)⟩ : CacheResult)) :: c0) q
          = ⟨[], some (findFileErr (splitPath p).2 e),
             ((splitPath p).1, ⟨[], some (findFileErr (splitPath p).2 e)⟩) :: c0, 0⟩ := by
        rw [findFile]
        simp [hdir, cacheFind]
      rw [h2]
      refine ⟨rfl, rfl, rfl, rfl, ?_⟩
      simp [cacheFind]
    | ok pd =>
      have h1 : findFile imp c0 p
          = ⟨joinPath pd (splitPath p).2, none,
             ((splitPath p).1, ⟨joinPath pd (splitPath p).2, none⟩) :: c0, 1⟩ := by
        rw [findFile]
        simp only [hc, him]
      rw [h1]
      have h2 : findFile imp
          (((splitPath p).1, (⟨joinPath pd (splitPath p).2, none⟩ : CacheResult)) :: c0) q
          = ⟨joinPath pd (splitPath p).2, none,
             ((splitPath p).1, ⟨joinPath pd (splitPath p).2, none⟩) :: c0, 0⟩ := by
        rw [findFile]
        simp [hdir, cacheFind]
      rw [h2]
      refine ⟨rfl, rfl, rfl, rfl, ?_⟩
      simp [cacheFind]

/-- Package oracle for the C8 witness: `pkg/` is the only known fragment. -/
def impW (d : List Char) : Except (List Char) (List Char) :=
  if d = ['p', 'k', 'g', '/'] then .ok ['/', 'x'] else .error ['n', 'o']

theorem findFile_memoized_witness :
    (splitPath ['p', 'k', 'g', '/', 'b', '.', 'g', 'o']).1
        = (splitPath ['p', 'k', 'g', '/', 'a', '.', 'g', 'o']).1
    ∧ ((findFile impW (findFile impW [] ['p', 'k', 'g', '/', 'a', '.', 'g', 'o']).cache
          ['p', 'k', 'g', '/', 'b', '.', 'g', 'o']).file
            = (findFile impW [] ['p', 'k', 'g', '/', 'a', '.', 'g', 'o']).file
       ∧ (findFile impW (findFile impW [] ['p', 'k', 'g', '/', 'a', '.', 'g', 'o']).cache
            ['p', 'k', 'g', '/', 'b', '.', 'g', 'o']).err
            = (findFile impW [] ['p', 'k', 'g', '/', 'a', '.', 'g', 'o']).err
       ∧ (findFile impW (findFile impW [] ['p', 'k', 'g', '/', 'a', '.', 'g', 'o']).cache
            ['p', 'k', 'g', '/', 'b', '.', 'g', 'o']).importCalls = 0
       ∧ (findFile impW (findFile impW [] ['p', 'k', 'g', '/', 'a', '.', 'g', 'o']).cache
            ['p', 'k', 'g', '/', 'b', '.', 'g', 'o']).cache
            = (findFile impW [] ['p', 'k', 'g', '/', 'a', '.', 'g', 'o']).cache
       ∧ cacheFind (findFile impW [] ['p', 'k', 'g', '/', 'a', '.', 'g', 'o']).cache
            (splitPath ['p', 'k', 'g', '/', 'a', '.', 'g', 'o']).1
            = some ⟨(findFile impW [] ['p', 'k', 'g', '/', 'a', '.', 'g', 'o']).file,
                    (findFile impW [] ['p', 'k', 'g', '/', 'a', '.', 'g', 'o']).err⟩) :=
  ⟨by decide,
   findFile_memoized impW [] ['p', 'k', 'g', '/', 'a', '.', 'g', 'o']
     ['p', 'k', 'g', '/', 'b', '.', 'g', 'o'] (by decide)⟩

end Covfmt
